import Mathlib

set_option maxRecDepth 10000

/-!
A verification development for the core package of the AES-256 File Vault
repository.  The visible source is the package facade (src/core, an init
module) that re-exports a FileVault engine and security utilities from two
submodules, encryptor and security_utils, whose sources are absent from the
repository snapshot.  Those components are therefore modelled from the
specification (each such definition carries a doc comment saying so), while
the package surface itself is transcribed from the source file.

Byte sequences are modelled as lists of naturals; a well-formed byte is
below 256.  Randomness is modelled as an explicit entropy source of type
Nat to Nat passed to the encryption operation, so that the two-run
properties of the specification become statements over two entropy inputs.
-/

namespace AESVault

/-- Byte sequences of the vault, as lists of naturals. -/
abbrev Bytes := List Nat

/-- Modelled from the spec: the salt size constant exported by the absent
src/core/security_utils.py module; the salt is a fixed-length random value. -/
def SALT_SIZE : Nat := 16

/-- Modelled from the spec: the IV size constant exported by the absent
src/core/security_utils.py module (AES block size). -/
def IV_SIZE : Nat := 16

/-- Modelled from the spec: the derived-key size constant exported by the
absent src/core/security_utils.py module (32 bytes, AES-256). -/
def KEY_SIZE : Nat := 32

/-- Modelled from the spec: the iteration count constant exported by the
absent src/core/security_utils.py module.  The spec fixes no numeric value;
a representative constant is used here. -/
def ITERATIONS : Nat := 100

/-- Size in bytes of the authentication tag appended to the ciphertext by
the modelled authenticated cipher mode. -/
def TAG_SIZE : Nat := 32

/-- Modulus bounding all internal hash and MAC state: 256 to the TAG_SIZE. -/
def HMOD : Nat := 256 ^ TAG_SIZE

/-- Error taxonomy of the vault, as enumerated by the specification. -/
inductive VaultError where
  | weakPassword : VaultError
  | randomSourceUnavailable : VaultError
  | derivationFailed : VaultError
  | malformedContainer : VaultError
  | decryptionFailed : VaultError
deriving DecidableEq

/-- Result of password validation: success, or a failure listing the
violated rules. -/
inductive ValidationResult where
  | valid : ValidationResult
  | weak : List String → ValidationResult
deriving DecidableEq

/-- Little-endian base-256 decoding of a byte list into a natural. -/
def bytesToNat : Bytes → Nat
  | [] => 0
  | b :: bs => b + 256 * bytesToNat bs

/-- Little-endian base-256 encoding of a natural into a fixed number of
bytes. -/
def natToBytes : Nat → Nat → Bytes
  | 0, _ => []
  | k + 1, x => x % 256 :: natToBytes k (x / 256)

/-- One step of the internal iterated hash: multiply-accumulate modulo
HMOD. -/
def hstep (a b : Nat) : Nat := (a * 31 + b) % HMOD

/-- Iterated hash of a byte list from a given accumulator. -/
def habs (a : Nat) (l : Bytes) : Nat := l.foldl hstep a

/-- Initial accumulator of the internal hash. -/
def H0 : Nat := 5381

/-- Modelled from the spec: generate_salt from the absent
src/core/security_utils.py, drawing SALT_SIZE bytes from the supplied
entropy source. -/
def generate_salt (rand : Nat → Nat) : Bytes :=
  (List.range SALT_SIZE).map (fun i => rand i % 256)

/-- Modelled from the spec: generate_iv from the absent
src/core/security_utils.py, drawing IV_SIZE bytes from the supplied
entropy source. -/
def generate_iv (rand : Nat → Nat) : Bytes :=
  (List.range IV_SIZE).map (fun i => rand i % 256)

/-- One round of the modelled key derivation. -/
def kdfStep (x : Nat) : Nat := (x * 31 + 17) % HMOD

/-- Iterate the key-derivation round a given number of times. -/
def kdfIter : Nat → Nat → Nat
  | 0, x => x
  | k + 1, x => kdfIter k (kdfStep x)

/-- Modelled from the spec: derive_key from the absent
src/core/security_utils.py.  An iterated derivation seeded from password
and salt, deterministic, producing exactly KEY_SIZE bytes. -/
def derive_key (password salt : Bytes) (iterations : Nat) : Bytes :=
  natToBytes KEY_SIZE (kdfIter iterations (habs H0 (password ++ salt)))

/-- Password-strength policy configuration, as enumerated by the spec. -/
structure PasswordPolicy where
  min_length : Nat
  require_mixed_case : Bool
  require_digit : Bool
  require_symbol : Bool
deriving DecidableEq

/-- Modelled from the spec: the configured policy of the vault.  Minimum
length eight; the optional character-class rules are not enabled. -/
def defaultPolicy : PasswordPolicy := ⟨8, false, false, false⟩

/-- Whether a password contains an upper-case letter. -/
def hasUpper (p : Bytes) : Bool := p.any (fun b => decide (65 ≤ b ∧ b ≤ 90))

/-- Whether a password contains a lower-case letter. -/
def hasLower (p : Bytes) : Bool := p.any (fun b => decide (97 ≤ b ∧ b ≤ 122))

/-- Whether a password contains a decimal digit. -/
def hasDigit (p : Bytes) : Bool := p.any (fun b => decide (48 ≤ b ∧ b ≤ 57))

/-- Whether a password contains a symbol (a byte outside the three
alphanumeric classes). -/
def hasSymbol (p : Bytes) : Bool :=
  p.any (fun b =>
    decide (¬ (65 ≤ b ∧ b ≤ 90) ∧ ¬ (97 ≤ b ∧ b ≤ 122) ∧ ¬ (48 ≤ b ∧ b ≤ 57)))

/-- Rules of the policy violated by a password. -/
def violations (pol : PasswordPolicy) (p : Bytes) : List String :=
  (if p.length < pol.min_length then ["min_length"] else []) ++
  (if pol.require_mixed_case && !(hasUpper p && hasLower p) then ["mixed_case"] else []) ++
  (if pol.require_digit && !(hasDigit p) then ["digit"] else []) ++
  (if pol.require_symbol && !(hasSymbol p) then ["symbol"] else [])

/-- Modelled from the spec: validate_password from the absent
src/core/security_utils.py.  A pure check returning success or the list of
violated rules. -/
def validate_password (pol : PasswordPolicy) (p : Bytes) : ValidationResult :=
  if violations pol p = [] then ValidationResult.valid
  else ValidationResult.weak (violations pol p)

/-- Keystream byte at a given index, from the seed derived of key and IV. -/
def ksByte (s i : Nat) : Nat := (s * 31 + i) % 256

/-- XOR a byte list against the keystream starting at a given index. -/
def xorStream (s : Nat) : Nat → Bytes → Bytes
  | _, [] => []
  | i, b :: bs => (b ^^^ ksByte s i) :: xorStream s (i + 1) bs

/-- Authentication code over key, IV and ciphertext body, below HMOD.  The
key enters injectively, modelling the spec requirement that an
authenticated mode catch password mismatch deterministically. -/
def mac (key iv ct : Bytes) : Nat :=
  (bytesToNat key + habs H0 (iv ++ ct)) % HMOD

/-- Modelled from the spec: the cipher-engine encryption of the absent
src/core/encryptor.py.  A stream-mode encryption of the plaintext followed
by an authentication tag; the error branch fires only on ill-sized key or
IV. -/
def CipherEngine.encrypt (key iv pt : Bytes) : Option Bytes :=
  if key.length = KEY_SIZE ∧ iv.length = IV_SIZE then
    some (xorStream (habs H0 (key ++ iv)) 0 pt ++
      natToBytes TAG_SIZE (mac key iv (xorStream (habs H0 (key ++ iv)) 0 pt)))
  else none

/-- Modelled from the spec: the cipher-engine decryption of the absent
src/core/encryptor.py.  Splits off the tag, recomputes the authentication
code, and fails with DecryptionFailed on any mismatch, identically for
every cause. -/
def CipherEngine.decrypt (key iv ct : Bytes) : Except VaultError Bytes :=
  if ct.length < TAG_SIZE then Except.error VaultError.decryptionFailed
  else
    if ct.drop (ct.length - TAG_SIZE) =
        natToBytes TAG_SIZE (mac key iv (ct.take (ct.length - TAG_SIZE))) then
      Except.ok (xorStream (habs H0 (key ++ iv)) 0 (ct.take (ct.length - TAG_SIZE)))
    else Except.error VaultError.decryptionFailed

/-- Modelled from the spec: container serialization of the absent
src/core/encryptor.py.  Fixed-offset layout salt, then IV, then
ciphertext. -/
def serialize (salt iv ct : Bytes) : Bytes := salt ++ iv ++ ct

/-- Modelled from the spec: container deserialization of the absent
src/core/encryptor.py.  Rejects inputs shorter than SALT_SIZE plus IV_SIZE
with MalformedContainer, otherwise splits at the fixed offsets. -/
def deserialize (b : Bytes) : Except VaultError (Bytes × Bytes × Bytes) :=
  if b.length < SALT_SIZE + IV_SIZE then Except.error VaultError.malformedContainer
  else Except.ok (b.take SALT_SIZE, (b.drop SALT_SIZE).take IV_SIZE,
    b.drop (SALT_SIZE + IV_SIZE))

/-- Modelled from the spec: FileVault.encrypt_file of the absent
src/core/encryptor.py.  Validates the password, draws salt and IV from the
explicit entropy source, derives the key, encrypts, and serializes the
container.  The cipher-engine error branch is unreachable here (the sizes
are correct by construction). -/
def FileVault.encrypt_file (rand : Nat → Nat) (password plaintext : Bytes) :
    Except VaultError Bytes :=
  match validate_password defaultPolicy password with
  | ValidationResult.weak _ => Except.error VaultError.weakPassword
  | ValidationResult.valid =>
    let salt := generate_salt rand
    let iv := generate_iv (fun i => rand (SALT_SIZE + i))
    match CipherEngine.encrypt (derive_key password salt ITERATIONS) iv plaintext with
    | some ct => Except.ok (serialize salt iv ct)
    | none => Except.error VaultError.derivationFailed

/-- Modelled from the spec: FileVault.decrypt_file of the absent
src/core/encryptor.py.  Deserializes the container, derives the key from
the embedded salt, and decrypts; the password is not re-validated. -/
def FileVault.decrypt_file (password container : Bytes) : Except VaultError Bytes :=
  match deserialize container with
  | Except.error e => Except.error e
  | Except.ok (salt, iv, ct) =>
    CipherEngine.decrypt (derive_key password salt ITERATIONS) iv ct

/-- Names imported by src/core from its encryptor submodule, transcribed
from the source. -/
def encryptor_imports : List String := ["FileVault"]

/-- Names imported by src/core from its security_utils submodule,
transcribed from the source. -/
def security_utils_imports : List String :=
  ["generate_salt", "generate_iv", "derive_key", "validate_password",
   "SALT_SIZE", "IV_SIZE", "KEY_SIZE", "ITERATIONS"]

/-- The public export list of src/core, transcribed from the source. -/
def core_all : List String :=
  ["FileVault", "generate_salt", "generate_iv", "derive_key",
   "validate_password", "SALT_SIZE", "IV_SIZE", "KEY_SIZE", "ITERATIONS"]

/-- Decidable equality for results of the vault operations. -/
instance {ε α : Type} [DecidableEq ε] [DecidableEq α] : DecidableEq (Except ε α) := fun a b =>
  match a, b with
  | Except.error e1, Except.error e2 =>
    if h : e1 = e2 then Decidable.isTrue (by rw [h])
    else Decidable.isFalse (fun hc => h (by injection hc))
  | Except.error _, Except.ok _ => Decidable.isFalse (fun hc => Except.noConfusion hc)
  | Except.ok _, Except.error _ => Decidable.isFalse (fun hc => Except.noConfusion hc)
  | Except.ok x, Except.ok y =>
    if h : x = y then Decidable.isTrue (by rw [h])
    else Decidable.isFalse (fun hc => h (by injection hc))

theorem natToBytes_length (k x : Nat) : (natToBytes k x).length = k := by
  induction k generalizing x with
  | zero => rfl
  | succ k ih => simp [natToBytes, ih]

theorem natToBytes_lt (k x : Nat) : ∀ b ∈ natToBytes k x, b < 256 := by
  induction k generalizing x with
  | zero => intro b hb; simp [natToBytes] at hb
  | succ k ih =>
    intro b hb
    simp only [natToBytes, List.mem_cons] at hb
    rcases hb with h | h
    · subst h; exact Nat.mod_lt _ (by norm_num)
    · exact ih _ b h

theorem bytesToNat_natToBytes (k x : Nat) : bytesToNat (natToBytes k x) = x % 256 ^ k := by
  induction k generalizing x with
  | zero => simp [natToBytes, bytesToNat, Nat.mod_one]
  | succ k ih =>
    simp only [natToBytes, bytesToNat, ih]
    rw [pow_succ, mul_comm (256 ^ k) 256, Nat.mod_mul]

theorem natToBytes_bytesToNat (l : Bytes) (hl : ∀ b ∈ l, b < 256) :
    natToBytes l.length (bytesToNat l) = l := by
  induction l with
  | nil => rfl
  | cons b bs ih =>
    have hb : b < 256 := hl b (by simp)
    simp only [List.length_cons, natToBytes, bytesToNat]
    congr 1
    · rw [Nat.add_mul_mod_self_left]
      exact Nat.mod_eq_of_lt hb
    · rw [Nat.add_mul_div_left _ _ (by norm_num : (0:Nat) < 256),
        Nat.div_eq_of_lt hb, Nat.zero_add]
      exact ih (fun x hx => hl x (by simp [hx]))

theorem bytesToNat_lt (l : Bytes) (hl : ∀ b ∈ l, b < 256) :
    bytesToNat l < 256 ^ l.length := by
  induction l with
  | nil => simp [bytesToNat]
  | cons b bs ih =>
    have hb : b < 256 := hl b (by simp)
    have hr : bytesToNat bs < 256 ^ bs.length := ih (fun x hx => hl x (by simp [hx]))
    simp only [bytesToNat, List.length_cons, pow_succ]
    omega

theorem natToBytes_inj (k t1 t2 : Nat) (h1 : t1 < 256 ^ k) (h2 : t2 < 256 ^ k)
    (h : natToBytes k t1 = natToBytes k t2) : t1 = t2 := by
  have hc := congrArg bytesToNat h
  rwa [bytesToNat_natToBytes, bytesToNat_natToBytes, Nat.mod_eq_of_lt h1,
    Nat.mod_eq_of_lt h2] at hc

theorem HMOD_pos : 0 < HMOD := Nat.pow_pos (by norm_num)

theorem HMOD_eq_pow : HMOD = 256 ^ 32 := rfl

theorem H0_lt : H0 < HMOD := by
  have h1 : (5381:Nat) < 256 ^ 2 := by norm_num
  have h2 : (256:Nat) ^ 2 ≤ 256 ^ 32 := Nat.pow_le_pow_right (by norm_num) (by norm_num)
  calc H0 = 5381 := rfl
  _ < 256 ^ 2 := h1
  _ ≤ 256 ^ 32 := h2
  _ = HMOD := rfl

theorem HMOD_coprime : Nat.gcd HMOD 31 = 1 := by
  have h : Nat.Coprime 31 HMOD := by
    have h0 : Nat.Coprime 31 256 := by decide
    simpa [HMOD] using h0.pow_right TAG_SIZE
  exact Nat.coprime_comm.mp h

theorem hstep_lt (a b : Nat) : hstep a b < HMOD := Nat.mod_lt _ HMOD_pos

theorem hstep_acc_inj (a1 a2 b : Nat) (h1 : a1 < HMOD) (h2 : a2 < HMOD)
    (h : hstep a1 b = hstep a2 b) : a1 = a2 := by
  have hm : a1 * 31 + b ≡ a2 * 31 + b [MOD HMOD] := h
  have hm2 := Nat.ModEq.add_right_cancel' b hm
  rw [mul_comm, mul_comm a2] at hm2
  have hm3 := Nat.ModEq.cancel_left_of_coprime HMOD_coprime hm2
  have hm4 : a1 % HMOD = a2 % HMOD := hm3
  rwa [Nat.mod_eq_of_lt h1, Nat.mod_eq_of_lt h2] at hm4

theorem hstep_arg_inj (a b1 b2 : Nat) (h1 : b1 < HMOD) (h2 : b2 < HMOD)
    (h : hstep a b1 = hstep a b2) : b1 = b2 := by
  have hm : a * 31 + b1 ≡ a * 31 + b2 [MOD HMOD] := h
  have hm2 := Nat.ModEq.add_left_cancel' (a * 31) hm
  have hm3 : b1 % HMOD = b2 % HMOD := hm2
  rwa [Nat.mod_eq_of_lt h1, Nat.mod_eq_of_lt h2] at hm3

theorem habs_cons (a b : Nat) (bs : Bytes) : habs a (b :: bs) = habs (hstep a b) bs := rfl

theorem habs_append (a : Nat) (l1 l2 : Bytes) :
    habs a (l1 ++ l2) = habs (habs a l1) l2 := List.foldl_append hstep a l1 l2

theorem habs_lt (l : Bytes) : ∀ a, a < HMOD → habs a l < HMOD := by
  induction l with
  | nil => intro a ha; exact ha
  | cons b bs ih => intro a _; exact ih (hstep a b) (hstep_lt a b)

theorem habs_acc_inj (l : Bytes) : ∀ a1 a2, a1 < HMOD → a2 < HMOD → a1 ≠ a2 →
    habs a1 l ≠ habs a2 l := by
  induction l with
  | nil => intro a1 a2 _ _ hne; exact hne
  | cons b bs ih =>
    intro a1 a2 h1 h2 hne
    have hs : hstep a1 b ≠ hstep a2 b := fun he => hne (hstep_acc_inj a1 a2 b h1 h2 he)
    exact ih (hstep a1 b) (hstep a2 b) (hstep_lt a1 b) (hstep_lt a2 b) hs

theorem habs_set_ne (l : Bytes) : ∀ j a b2, j < l.length → l.getD j 0 < HMOD →
    b2 < HMOD → b2 ≠ l.getD j 0 → a < HMOD → habs a (l.set j b2) ≠ habs a l := by
  induction l with
  | nil => intro j a b2 hj; simp at hj
  | cons b bs ih =>
    intro j a b2 hj hold hb2 hne ha
    cases j with
    | zero =>
      simp only [List.getD_cons_zero] at hold hne
      show habs (hstep a b2) bs ≠ habs (hstep a b) bs
      apply habs_acc_inj bs _ _ (hstep_lt a b2) (hstep_lt a b)
      intro he; exact hne (hstep_arg_inj a b2 b hb2 hold he)
    | succ j =>
      simp only [List.getD_cons_succ] at hold hne
      show habs (hstep a b) (bs.set j b2) ≠ habs (hstep a b) bs
      exact ih j (hstep a b) b2 (by simpa using hj) hold hb2 hne (hstep_lt a b)

theorem key_bound (l : Bytes) (hl : ∀ b ∈ l, b < 256) (hlen : l.length = KEY_SIZE) :
    bytesToNat l < HMOD := by
  have h := bytesToNat_lt l hl
  rwa [hlen] at h

theorem mac_lt (key iv ct : Bytes) : mac key iv ct < HMOD := Nat.mod_lt _ HMOD_pos

theorem mac_key_ne (k1 k2 iv ct : Bytes) (hl1 : ∀ b ∈ k1, b < 256)
    (hl2 : ∀ b ∈ k2, b < 256) (hlen1 : k1.length = KEY_SIZE)
    (hlen2 : k2.length = KEY_SIZE) (hne : k1 ≠ k2) :
    mac k1 iv ct ≠ mac k2 iv ct := by
  have hv : bytesToNat k1 ≠ bytesToNat k2 := by
    intro he
    apply hne
    have e1 := natToBytes_bytesToNat k1 hl1
    have e2 := natToBytes_bytesToNat k2 hl2
    rw [hlen1] at e1
    rw [hlen2] at e2
    rw [← e1, ← e2, he]
  intro he
  have hm : bytesToNat k1 + habs H0 (iv ++ ct) ≡
      bytesToNat k2 + habs H0 (iv ++ ct) [MOD HMOD] := he
  have hm2 := Nat.ModEq.add_right_cancel' _ hm
  have hm3 : bytesToNat k1 % HMOD = bytesToNat k2 % HMOD := hm2
  rw [Nat.mod_eq_of_lt (key_bound k1 hl1 hlen1),
    Nat.mod_eq_of_lt (key_bound k2 hl2 hlen2)] at hm3
  exact hv hm3

theorem mac_ct_ne (key iv ct1 ct2 : Bytes)
    (h : habs H0 (iv ++ ct1) ≠ habs H0 (iv ++ ct2)) :
    mac key iv ct1 ≠ mac key iv ct2 := by
  intro he
  apply h
  have hm : bytesToNat key + habs H0 (iv ++ ct1) ≡
      bytesToNat key + habs H0 (iv ++ ct2) [MOD HMOD] := he
  have hm2 := Nat.ModEq.add_left_cancel' _ hm
  have hm3 : habs H0 (iv ++ ct1) % HMOD = habs H0 (iv ++ ct2) % HMOD := hm2
  rwa [Nat.mod_eq_of_lt (habs_lt _ _ H0_lt), Nat.mod_eq_of_lt (habs_lt _ _ H0_lt)] at hm3

theorem mac_tag_ne (key iv ct1 ct2 : Bytes) (h : mac key iv ct1 ≠ mac key iv ct2) :
    natToBytes TAG_SIZE (mac key iv ct1) ≠ natToBytes TAG_SIZE (mac key iv ct2) := by
  intro he
  exact h (natToBytes_inj TAG_SIZE _ _ (mac_lt key iv ct1) (mac_lt key iv ct2) he)

theorem ksByte_lt (s i : Nat) : ksByte s i < 256 := Nat.mod_lt _ (by norm_num)

theorem xorStream_length (s : Nat) (l : Bytes) : ∀ i, (xorStream s i l).length = l.length := by
  induction l with
  | nil => intro i; rfl
  | cons b bs ih => intro i; simp [xorStream, ih]

theorem xorStream_involutive (s : Nat) (l : Bytes) :
    ∀ i, xorStream s i (xorStream s i l) = l := by
  induction l with
  | nil => intro i; rfl
  | cons b bs ih =>
    intro i
    show (b ^^^ ksByte s i ^^^ ksByte s i) :: xorStream s (i + 1) (xorStream s (i + 1) bs)
      = b :: bs
    rw [Nat.xor_cancel_right, ih]

theorem xorStream_lt (s : Nat) (l : Bytes) (hl : ∀ b ∈ l, b < 256) :
    ∀ i b2, b2 ∈ xorStream s i l → b2 < 256 := by
  induction l with
  | nil => intro i b2 hb; simp [xorStream] at hb
  | cons b bs ih =>
    intro i b2 hb
    simp only [xorStream, List.mem_cons] at hb
    rcases hb with h | h
    · subst h
      have hb : b < 256 := hl b (by simp)
      have h8 : (256:Nat) = 2 ^ 8 := by norm_num
      rw [h8]
      exact Nat.xor_lt_two_pow (by omega) (by have := ksByte_lt s i; omega)
    · exact ih (fun x hx => hl x (by simp [hx])) (i + 1) b2 h

theorem xor_pow_ne (b k : Nat) : b ^^^ 2 ^ k ≠ b := by
  intro he
  have h1 : b ^^^ (b ^^^ 2 ^ k) = b ^^^ b := by rw [he]
  rw [← Nat.xor_assoc, Nat.xor_self, Nat.zero_xor] at h1
  exact absurd h1 (Nat.pos_iff_ne_zero.mp (Nat.pos_pow_of_pos k (by norm_num)))

theorem getD_lt_of_forall (l : Bytes) (j : Nat) (hj : j < l.length)
    (hl : ∀ b ∈ l, b < 256) : l.getD j 0 < 256 := by
  rw [List.getD_eq_getElem l 0 hj]
  exact hl _ (List.getElem_mem hj)

theorem set_ne_self (l : Bytes) : ∀ j b2, j < l.length → b2 ≠ l.getD j 0 →
    l.set j b2 ≠ l := by
  induction l with
  | nil => intro j b2 hj; simp at hj
  | cons b bs ih =>
    intro j b2 hj hne he
    cases j with
    | zero =>
      simp only [List.getD_cons_zero] at hne
      simp only [List.set] at he
      injection he with h1 h2
      exact hne h1
    | succ j =>
      simp only [List.getD_cons_succ] at hne
      simp only [List.set] at he
      injection he with h1 h2
      exact ih j b2 (by simpa using hj) hne h2

theorem set_append_right' (l1 l2 : List Nat) (j b : Nat) :
    (l1 ++ l2).set (l1.length + j) b = l1 ++ l2.set j b := by
  rw [List.set_append]
  have h : ¬ (l1.length + j < l1.length) := by omega
  rw [if_neg h]
  congr 1
  congr 1
  omega

theorem set_append_left' (l1 l2 : List Nat) (j b : Nat) (hj : j < l1.length) :
    (l1 ++ l2).set j b = l1.set j b ++ l2 := by
  rw [List.set_append, if_pos hj]

/-- The salt drawn by encrypt_file from the entropy source. -/
def saltOf (rand : Nat → Nat) : Bytes := generate_salt rand

/-- The IV drawn by encrypt_file from the entropy source. -/
def ivOf (rand : Nat → Nat) : Bytes := generate_iv (fun i => rand (SALT_SIZE + i))

/-- The key derived by encrypt_file. -/
def keyOf (rand : Nat → Nat) (p : Bytes) : Bytes := derive_key p (saltOf rand) ITERATIONS

/-- The ciphertext body produced by encrypt_file. -/
def encOf (rand : Nat → Nat) (p m : Bytes) : Bytes :=
  xorStream (habs H0 (keyOf rand p ++ ivOf rand)) 0 m

/-- The authentication tag produced by encrypt_file. -/
def tagOf (rand : Nat → Nat) (p m : Bytes) : Bytes :=
  natToBytes TAG_SIZE (mac (keyOf rand p) (ivOf rand) (encOf rand p m))

/-- The container produced by a successful encrypt_file call. -/
def containerOf (rand : Nat → Nat) (p m : Bytes) : Bytes :=
  saltOf rand ++ (ivOf rand ++ (encOf rand p m ++ tagOf rand p m))

theorem derive_key_length (p s : Bytes) (it : Nat) :
    (derive_key p s it).length = KEY_SIZE := natToBytes_length _ _

theorem derive_key_lt (p s : Bytes) (it : Nat) :
    ∀ b ∈ derive_key p s it, b < 256 := natToBytes_lt _ _

theorem saltOf_length (rand : Nat → Nat) : (saltOf rand).length = SALT_SIZE := by
  simp [saltOf, generate_salt]

theorem ivOf_length (rand : Nat → Nat) : (ivOf rand).length = IV_SIZE := by
  simp [ivOf, generate_iv]

theorem keyOf_length (rand : Nat → Nat) (p : Bytes) :
    (keyOf rand p).length = KEY_SIZE := natToBytes_length _ _

theorem encOf_length (rand : Nat → Nat) (p m : Bytes) :
    (encOf rand p m).length = m.length := xorStream_length _ _ _

theorem tagOf_length (rand : Nat → Nat) (p m : Bytes) :
    (tagOf rand p m).length = TAG_SIZE := natToBytes_length _ _

theorem cipher_encrypt_eq (key iv pt : Bytes) (hk : key.length = KEY_SIZE)
    (hiv : iv.length = IV_SIZE) :
    CipherEngine.encrypt key iv pt = some (xorStream (habs H0 (key ++ iv)) 0 pt ++
      natToBytes TAG_SIZE (mac key iv (xorStream (habs H0 (key ++ iv)) 0 pt))) := by
  unfold CipherEngine.encrypt
  rw [if_pos ⟨hk, hiv⟩]

theorem cipher_decrypt_split (key iv enc tg : Bytes) (htg : tg.length = TAG_SIZE) :
    CipherEngine.decrypt key iv (enc ++ tg) =
      if tg = natToBytes TAG_SIZE (mac key iv enc) then
        Except.ok (xorStream (habs H0 (key ++ iv)) 0 enc)
      else Except.error VaultError.decryptionFailed := by
  unfold CipherEngine.decrypt
  have hlen : (enc ++ tg).length = enc.length + TAG_SIZE := by simp [htg]
  have hnl : ¬ ((enc ++ tg).length < TAG_SIZE) := by omega
  rw [if_neg hnl]
  have hsub : (enc ++ tg).length - TAG_SIZE = enc.length := by omega
  rw [hsub, List.take_left, List.drop_left]

theorem cipher_round_trip (key iv pt : Bytes) :
    CipherEngine.decrypt key iv (xorStream (habs H0 (key ++ iv)) 0 pt ++
      natToBytes TAG_SIZE (mac key iv (xorStream (habs H0 (key ++ iv)) 0 pt))) =
    Except.ok pt := by
  rw [cipher_decrypt_split _ _ _ _ (natToBytes_length _ _), if_pos rfl,
    xorStream_involutive]

theorem encrypt_file_eq (rand : Nat → Nat) (p m : Bytes)
    (hv : validate_password defaultPolicy p = ValidationResult.valid) :
    FileVault.encrypt_file rand p m = Except.ok (containerOf rand p m) := by
  have hiv : (generate_iv (fun i => rand (SALT_SIZE + i))).length = IV_SIZE := by
    simp [generate_iv]
  simp only [FileVault.encrypt_file, hv,
    cipher_encrypt_eq _ _ _ (derive_key_length p (generate_salt rand) ITERATIONS) hiv]
  rfl

theorem encrypt_file_ok_inv (rand : Nat → Nat) (p m c : Bytes)
    (h : FileVault.encrypt_file rand p m = Except.ok c) :
    validate_password defaultPolicy p = ValidationResult.valid ∧
      c = containerOf rand p m := by
  cases hval : validate_password defaultPolicy p with
  | weak v =>
    simp [FileVault.encrypt_file, hval] at h
  | valid =>
    rw [encrypt_file_eq rand p m hval] at h
    injection h with h1
    exact ⟨rfl, h1.symm⟩

theorem containerOf_take_salt (rand : Nat → Nat) (p m : Bytes) :
    (containerOf rand p m).take SALT_SIZE = saltOf rand :=
  List.take_left' (saltOf_length rand)

theorem containerOf_drop_salt (rand : Nat → Nat) (p m : Bytes) :
    (containerOf rand p m).drop SALT_SIZE =
      ivOf rand ++ (encOf rand p m ++ tagOf rand p m) :=
  List.drop_left' (saltOf_length rand)

theorem containerOf_iv (rand : Nat → Nat) (p m : Bytes) :
    ((containerOf rand p m).drop SALT_SIZE).take IV_SIZE = ivOf rand := by
  rw [containerOf_drop_salt]
  exact List.take_left' (ivOf_length rand)

theorem containerOf_ct (rand : Nat → Nat) (p m : Bytes) :
    (containerOf rand p m).drop (SALT_SIZE + IV_SIZE) =
      encOf rand p m ++ tagOf rand p m := by
  unfold containerOf
  rw [← List.append_assoc]
  exact List.drop_left' (by simp [saltOf_length, ivOf_length])

theorem length_append_pair (s i : Bytes) (hs : s.length = SALT_SIZE)
    (hi : i.length = IV_SIZE) : (s ++ i).length = SALT_SIZE + IV_SIZE := by
  simp [hs, hi]

theorem containerOf_length (rand : Nat → Nat) (p m : Bytes) :
    (containerOf rand p m).length = SALT_SIZE + IV_SIZE + (m.length + TAG_SIZE) := by
  simp [containerOf, saltOf_length, ivOf_length, encOf_length, tagOf_length]
  omega

theorem deserialize_split (s i r : Bytes) (hs : s.length = SALT_SIZE)
    (hi : i.length = IV_SIZE) :
    deserialize (s ++ (i ++ r)) = Except.ok (s, i, r) := by
  unfold deserialize
  have hlen : (s ++ (i ++ r)).length = SALT_SIZE + IV_SIZE + r.length := by
    simp only [List.length_append, hs, hi]
    omega
  rw [if_neg (by omega)]
  rw [List.take_left' hs, List.drop_left' hs, List.take_left' hi]
  rw [← List.append_assoc, List.drop_left' (length_append_pair s i hs hi)]

theorem deserialize_container (rand : Nat → Nat) (p m : Bytes) :
    deserialize (containerOf rand p m) =
      Except.ok (saltOf rand, ivOf rand, encOf rand p m ++ tagOf rand p m) :=
  deserialize_split _ _ _ (saltOf_length rand) (ivOf_length rand)

theorem decrypt_containerOf (rand : Nat → Nat) (p m : Bytes) :
    FileVault.decrypt_file p (containerOf rand p m) = Except.ok m := by
  unfold FileVault.decrypt_file
  rw [deserialize_container]
  show CipherEngine.decrypt (derive_key p (saltOf rand) ITERATIONS) (ivOf rand)
    (encOf rand p m ++ tagOf rand p m) = Except.ok m
  exact cipher_round_trip (keyOf rand p) (ivOf rand) m

theorem tag_ne_of_mac_ne (m1 m2 : Nat) (h1 : m1 < HMOD) (h2 : m2 < HMOD)
    (h : m1 ≠ m2) : natToBytes TAG_SIZE m1 ≠ natToBytes TAG_SIZE m2 :=
  fun he => h (natToBytes_inj TAG_SIZE m1 m2 h1 h2 he)

theorem deserialize_cases (b : Bytes) :
    (∃ t, deserialize b = Except.ok t) ∨
    deserialize b = Except.error VaultError.malformedContainer := by
  unfold deserialize
  split
  · exact Or.inr rfl
  · exact Or.inl ⟨_, rfl⟩

theorem cipher_decrypt_cases (key iv ct : Bytes) :
    (∃ pt, CipherEngine.decrypt key iv ct = Except.ok pt) ∨
    CipherEngine.decrypt key iv ct = Except.error VaultError.decryptionFailed := by
  unfold CipherEngine.decrypt
  split
  · exact Or.inr rfl
  · split
    · exact Or.inl ⟨_, rfl⟩
    · exact Or.inr rfl

theorem map_range_ne (n i : Nat) (f g : Nat → Nat) (hi : i < n) (hne : f i ≠ g i) :
    (List.range n).map f ≠ (List.range n).map g := by
  intro h
  apply hne
  have h2 := congrArg (fun l => l[i]?) h
  simp only [List.getElem?_map, List.getElem?_range hi, Option.map_some'] at h2
  exact Option.some.inj h2

/-- Entropy source used by the concrete witnesses. -/
def wRand : Nat → Nat := fun i => i

/-- All-zero entropy source used by the concrete witnesses. -/
def wRand0 : Nat → Nat := fun _ => 0

/-- All-one entropy source used by the concrete witnesses. -/
def wRand1 : Nat → Nat := fun _ => 1

/-- A policy-conformant password used by the concrete witnesses. -/
def wPass : Bytes := List.replicate 8 97

/-- A second, distinct policy-conformant password. -/
def wPass2 : Bytes := List.replicate 8 98

/-- A small plaintext used by the concrete witnesses. -/
def wMsg : Bytes := [104, 105, 33]

/-- A well-sized key used by the concrete witnesses. -/
def wKey : Bytes := List.replicate 32 7

/-- A well-sized IV used by the concrete witnesses. -/
def wIv : Bytes := List.replicate 16 3

/-- C10: the core package's public surface is exactly the nine re-exported
names: its export list equals, one for one, the names imported from the
encryptor and security_utils submodules, has exactly nine entries, and
holds no duplicates, so a star import exposes exactly these names. -/
theorem claim_c10_export_surface :
    core_all = encryptor_imports ++ security_utils_imports ∧
    core_all.length = 9 ∧ core_all.Nodup := by decide

/-- C3: decrypting any byte sequence shorter than SALT_SIZE plus IV_SIZE
fails with MalformedContainer for every password, and deserialization of
such input fails with MalformedContainer as well, before any cryptographic
operation. -/
theorem claim_c3_malformed (p b : Bytes) (hb : b.length < SALT_SIZE + IV_SIZE) :
    FileVault.decrypt_file p b = Except.error VaultError.malformedContainer ∧
    deserialize b = Except.error VaultError.malformedContainer := by
  have hd : deserialize b = Except.error VaultError.malformedContainer := by
    unfold deserialize
    rw [if_pos hb]
  refine ⟨?_, hd⟩
  unfold FileVault.decrypt_file
  rw [hd]

theorem claim_c3_witness :
    ([0, 1, 2] : Bytes).length < SALT_SIZE + IV_SIZE ∧
    FileVault.decrypt_file wPass [0, 1, 2] =
      Except.error VaultError.malformedContainer :=
  ⟨by decide, (claim_c3_malformed wPass [0, 1, 2] (by decide)).1⟩

/-- C4: every container produced by encrypt_file is the concatenation
salt, then IV, then ciphertext at fixed offsets, with the salt exactly
SALT_SIZE bytes and the IV exactly IV_SIZE bytes, total length at least
SALT_SIZE plus IV_SIZE, and deserializing the container recovers exactly
the serialized fields. -/
theorem claim_c4_layout (rand : Nat → Nat) (p m c : Bytes)
    (h : FileVault.encrypt_file rand p m = Except.ok c) :
    ∃ salt iv ct, c = salt ++ iv ++ ct ∧ salt.length = SALT_SIZE ∧
      iv.length = IV_SIZE ∧ SALT_SIZE + IV_SIZE ≤ c.length ∧
      c.take SALT_SIZE = salt ∧ (c.drop SALT_SIZE).take IV_SIZE = iv ∧
      c.drop (SALT_SIZE + IV_SIZE) = ct ∧
      deserialize c = Except.ok (salt, iv, ct) := by
  obtain ⟨hv, hc⟩ := encrypt_file_ok_inv rand p m c h
  subst hc
  refine ⟨saltOf rand, ivOf rand, encOf rand p m ++ tagOf rand p m, ?_,
    saltOf_length rand, ivOf_length rand, ?_, containerOf_take_salt rand p m,
    containerOf_iv rand p m, containerOf_ct rand p m,
    deserialize_container rand p m⟩
  · rw [List.append_assoc]
    exact rfl
  · have hlen := containerOf_length rand p m
    omega

theorem claim_c4_witness :
    FileVault.encrypt_file wRand wPass wMsg =
      Except.ok ((FileVault.encrypt_file wRand wPass wMsg).toOption.getD []) ∧
    (∃ salt iv ct,
      (FileVault.encrypt_file wRand wPass wMsg).toOption.getD [] = salt ++ iv ++ ct ∧
      salt.length = SALT_SIZE ∧ iv.length = IV_SIZE ∧
      SALT_SIZE + IV_SIZE ≤ ((FileVault.encrypt_file wRand wPass wMsg).toOption.getD []).length ∧
      ((FileVault.encrypt_file wRand wPass wMsg).toOption.getD []).take SALT_SIZE = salt ∧
      (((FileVault.encrypt_file wRand wPass wMsg).toOption.getD []).drop SALT_SIZE).take IV_SIZE = iv ∧
      ((FileVault.encrypt_file wRand wPass wMsg).toOption.getD []).drop (SALT_SIZE + IV_SIZE) = ct ∧
      deserialize ((FileVault.encrypt_file wRand wPass wMsg).toOption.getD []) =
        Except.ok (salt, iv, ct)) :=
  ⟨by decide, claim_c4_layout wRand wPass wMsg
    ((FileVault.encrypt_file wRand wPass wMsg).toOption.getD []) (by decide)⟩

/-- C5: derive_key is deterministic and size-correct: its output is always
exactly KEY_SIZE bytes, and equal inputs give equal keys. -/
theorem claim_c5_derive_key (p s : Bytes) (it : Nat) :
    (derive_key p s it).length = KEY_SIZE ∧
    ∀ p2 s2 it2, p = p2 → s = s2 → it = it2 →
      derive_key p s it = derive_key p2 s2 it2 := by
  refine ⟨derive_key_length p s it, ?_⟩
  intro p2 s2 it2 h1 h2 h3
  rw [h1, h2, h3]

theorem claim_c5_witness :
    (derive_key wPass [1, 2] 3).length = KEY_SIZE ∧
    derive_key wPass [1, 2] 3 = derive_key wPass [1, 2] 3 :=
  ⟨(claim_c5_derive_key wPass [1, 2] 3).1,
   (claim_c5_derive_key wPass [1, 2] 3).2 wPass [1, 2] 3 rfl rfl rfl⟩

/-- C9: cipher-engine encryption is total on well-formed inputs: for every
key of KEY_SIZE bytes, IV of IV_SIZE bytes, and arbitrary plaintext, it
returns a ciphertext and the error branch is unreachable. -/
theorem claim_c9_encrypt_total (key iv pt : Bytes) (hk : key.length = KEY_SIZE)
    (hiv : iv.length = IV_SIZE) : ∃ ct, CipherEngine.encrypt key iv pt = some ct :=
  ⟨_, cipher_encrypt_eq key iv pt hk hiv⟩

theorem claim_c9_witness : ∃ ct, CipherEngine.encrypt wKey wIv [1, 2, 3] = some ct :=
  claim_c9_encrypt_total wKey wIv [1, 2, 3] (by decide) (by decide)

/-- C1: round trip: for every password meeting the policy and every byte
sequence, including the empty one, decrypting the encryption of the
plaintext under the same password returns exactly the plaintext. -/
theorem claim_c1_round_trip (rand : Nat → Nat) (p m : Bytes)
    (hv : validate_password defaultPolicy p = ValidationResult.valid) :
    FileVault.decrypt_file p ((FileVault.encrypt_file rand p m).toOption.getD []) =
      Except.ok m := by
  rw [encrypt_file_eq rand p m hv]
  show FileVault.decrypt_file p (containerOf rand p m) = Except.ok m
  exact decrypt_containerOf rand p m

theorem claim_c1_witness :
    validate_password defaultPolicy wPass = ValidationResult.valid ∧
    FileVault.decrypt_file wPass
      ((FileVault.encrypt_file wRand wPass wMsg).toOption.getD []) = Except.ok wMsg :=
  ⟨by decide, claim_c1_round_trip wRand wPass wMsg (by decide)⟩

/-- C8: encrypt_file rejects every password shorter than the configured
minimum length with WeakPassword, accepts every password meeting all
configured rules, and decrypt_file never fails with WeakPassword. -/
theorem claim_c8_policy (rand : Nat → Nat) (p m : Bytes) :
    (p.length < defaultPolicy.min_length →
      FileVault.encrypt_file rand p m = Except.error VaultError.weakPassword) ∧
    (validate_password defaultPolicy p = ValidationResult.valid →
      ∃ c, FileVault.encrypt_file rand p m = Except.ok c) ∧
    (∀ q b, FileVault.decrypt_file q b ≠ Except.error VaultError.weakPassword) := by
  refine ⟨?_, ?_, ?_⟩
  · intro hlen
    have hlen8 : p.length < 8 := hlen
    have hviol : violations defaultPolicy p = ["min_length"] := by
      simp [violations, defaultPolicy, hlen8]
    have hval : validate_password defaultPolicy p =
        ValidationResult.weak ["min_length"] := by
      simp [validate_password, hviol]
    simp [FileVault.encrypt_file, hval]
  · intro hv
    exact ⟨containerOf rand p m, encrypt_file_eq rand p m hv⟩
  · intro q b
    unfold FileVault.decrypt_file
    rcases deserialize_cases b with ⟨⟨salt, iv, ct⟩, hd⟩ | hd
    · simp only [hd]
      rcases cipher_decrypt_cases (derive_key q salt ITERATIONS) iv ct with
        ⟨pt, he⟩ | he
      · simp [he]
      · simp [he]
    · simp [hd]

theorem claim_c8_witness :
    FileVault.encrypt_file wRand [97] [] = Except.error VaultError.weakPassword ∧
    (∃ c, FileVault.encrypt_file wRand wPass [] = Except.ok c) ∧
    FileVault.decrypt_file wPass [] ≠ Except.error VaultError.weakPassword :=
  ⟨(claim_c8_policy wRand [97] []).1 (by decide),
   (claim_c8_policy wRand wPass []).2.1 (by decide),
   (claim_c8_policy wRand wPass []).2.2 wPass []⟩

theorem le256_HMOD : (256:Nat) ≤ HMOD := by
  calc (256:Nat) = 256 ^ 1 := by norm_num
  _ ≤ 256 ^ 32 := Nat.pow_le_pow_right (by norm_num) (by norm_num)
  _ = HMOD := rfl

theorem set_salt_iv (s i r : Bytes) (hs : s.length = SALT_SIZE)
    (hi : i.length = IV_SIZE) (j b : Nat) :
    (s ++ (i ++ r)).set (SALT_SIZE + IV_SIZE + j) b = s ++ (i ++ r.set j b) := by
  have e1 : SALT_SIZE + IV_SIZE + j = s.length + (i.length + j) := by omega
  rw [e1, set_append_right', set_append_right']

theorem getD_salt_iv (s i r : Bytes) (hs : s.length = SALT_SIZE)
    (hi : i.length = IV_SIZE) (j : Nat) :
    (s ++ (i ++ r)).getD (SALT_SIZE + IV_SIZE + j) 0 = r.getD j 0 := by
  have e1 : SALT_SIZE + IV_SIZE + j = s.length + (i.length + j) := by omega
  rw [e1, List.getD_append_right _ _ _ _ (by omega)]
  have e2 : s.length + (i.length + j) - s.length = i.length + j := by omega
  rw [e2, List.getD_append_right _ _ _ _ (by omega)]
  have e3 : i.length + j - i.length = j := by omega
  rw [e3]

theorem cipher_tamper (key iv enc2 : Bytes) (j k : Nat)
    (hb : ∀ b ∈ enc2, b < 256)
    (hj : j < enc2.length + TAG_SIZE) (hk : k < 8) :
    CipherEngine.decrypt key iv
      ((enc2 ++ natToBytes TAG_SIZE (mac key iv enc2)).set j
        ((enc2 ++ natToBytes TAG_SIZE (mac key iv enc2)).getD j 0 ^^^ 2 ^ k)) =
      Except.error VaultError.decryptionFailed := by
  have htglen : (natToBytes TAG_SIZE (mac key iv enc2)).length = TAG_SIZE :=
    natToBytes_length _ _
  have h256H : (256:Nat) ≤ HMOD := le256_HMOD
  by_cases hcase : j < enc2.length
  · have hgd : (enc2 ++ natToBytes TAG_SIZE (mac key iv enc2)).getD j 0 =
        enc2.getD j 0 := List.getD_append _ _ _ j hcase
    have hb0 : enc2.getD j 0 < 256 := getD_lt_of_forall enc2 j hcase hb
    have h2k : (2:Nat) ^ k < 256 := by
      have h1 : (2:Nat) ^ k ≤ 2 ^ 7 := Nat.pow_le_pow_right (by norm_num) (by omega)
      have h2 : (2:Nat) ^ 7 = 128 := by norm_num
      omega
    have hb1 : enc2.getD j 0 ^^^ 2 ^ k < 256 := by
      have h8 : (256:Nat) = 2 ^ 8 := by norm_num
      rw [h8]
      exact Nat.xor_lt_two_pow (by omega) (by omega)
    have hmacne : mac key iv (enc2.set j (enc2.getD j 0 ^^^ 2 ^ k)) ≠
        mac key iv enc2 := by
      apply mac_ct_ne
      rw [habs_append, habs_append]
      exact habs_set_ne enc2 j (habs H0 iv) _ hcase (by omega) (by omega)
        (xor_pow_ne _ k) (habs_lt iv H0 H0_lt)
    have htagne : ¬ (natToBytes TAG_SIZE (mac key iv enc2) =
        natToBytes TAG_SIZE (mac key iv (enc2.set j (enc2.getD j 0 ^^^ 2 ^ k)))) :=
      tag_ne_of_mac_ne _ _ (mac_lt _ _ _) (mac_lt _ _ _) (Ne.symm hmacne)
    rw [hgd, set_append_left' _ _ _ _ hcase,
      cipher_decrypt_split key iv _ _ htglen, if_neg htagne]
  · have hle : enc2.length ≤ j := Nat.le_of_not_lt hcase
    obtain ⟨j2, hj2⟩ : ∃ j2, j = enc2.length + j2 := ⟨j - enc2.length, by omega⟩
    subst hj2
    have hj3 : j2 < TAG_SIZE := by omega
    rw [List.getD_append_right _ _ _ _ (by omega)]
    have hidx : enc2.length + j2 - enc2.length = j2 := by omega
    rw [hidx, set_append_right']
    have hsetlen : ((natToBytes TAG_SIZE (mac key iv enc2)).set j2
        ((natToBytes TAG_SIZE (mac key iv enc2)).getD j2 0 ^^^ 2 ^ k)).length =
        TAG_SIZE := by
      rw [List.length_set]
      exact htglen
    rw [cipher_decrypt_split key iv enc2 _ hsetlen]
    have hne : (natToBytes TAG_SIZE (mac key iv enc2)).set j2
        ((natToBytes TAG_SIZE (mac key iv enc2)).getD j2 0 ^^^ 2 ^ k) ≠
        natToBytes TAG_SIZE (mac key iv enc2) :=
      set_ne_self _ j2 _ (by rw [htglen]; exact hj3) (xor_pow_ne _ k)
    rw [if_neg hne]

/-- C6: flipping any single bit in the ciphertext region of a container
produced by encrypt_file makes decrypt_file with the original password fail
with DecryptionFailed rather than return altered plaintext. -/
theorem claim_c6_tamper (rand : Nat → Nat) (p m c : Bytes)
    (hm : ∀ b ∈ m, b < 256)
    (hc : FileVault.encrypt_file rand p m = Except.ok c)
    (j k : Nat) (hj : SALT_SIZE + IV_SIZE + j < c.length) (hk : k < 8) :
    FileVault.decrypt_file p
      (c.set (SALT_SIZE + IV_SIZE + j)
        (c.getD (SALT_SIZE + IV_SIZE + j) 0 ^^^ 2 ^ k)) =
      Except.error VaultError.decryptionFailed := by
  obtain ⟨hv, hcc⟩ := encrypt_file_ok_inv rand p m c hc
  subst hcc
  have hlen := containerOf_length rand p m
  unfold containerOf at hj ⊢
  rw [set_salt_iv _ _ _ (saltOf_length rand) (ivOf_length rand),
    getD_salt_iv _ _ _ (saltOf_length rand) (ivOf_length rand)]
  unfold FileVault.decrypt_file
  rw [deserialize_split _ _ _ (saltOf_length rand) (ivOf_length rand)]
  show CipherEngine.decrypt (derive_key p (saltOf rand) ITERATIONS) (ivOf rand)
      ((encOf rand p m ++ tagOf rand p m).set j
        ((encOf rand p m ++ tagOf rand p m).getD j 0 ^^^ 2 ^ k)) =
      Except.error VaultError.decryptionFailed
  have henc : ∀ b ∈ encOf rand p m, b < 256 :=
    fun b hb1 => xorStream_lt _ m hm 0 b hb1
  have hjlen : j < (encOf rand p m).length + TAG_SIZE := by
    rw [encOf_length]
    unfold containerOf at hlen
    omega
  exact cipher_tamper (keyOf rand p) (ivOf rand) (encOf rand p m) j k henc hjlen hk

/-- The container tampered with in the C6 witness. -/
def wC6c : Bytes := (FileVault.encrypt_file wRand wPass wMsg).toOption.getD []

theorem claim_c6_witness :
    FileVault.decrypt_file wPass
      (wC6c.set (SALT_SIZE + IV_SIZE + 0)
        (wC6c.getD (SALT_SIZE + IV_SIZE + 0) 0 ^^^ 2 ^ 0)) =
      Except.error VaultError.decryptionFailed :=
  claim_c6_tamper wRand wPass wMsg wC6c (by decide) (by decide) 0 0
    (by decide) (by decide)

/-- C2 (amended): whenever the key derived from the second password under
the container's embedded salt differs from the encryption key, decryption
under the second password fails with DecryptionFailed; the failure is the
very same DecryptionFailed value produced for tampered ciphertext, so the
two causes are surfaced identically. -/
theorem claim_c2_wrong_password (rand : Nat → Nat) (p1 p2 m c : Bytes)
    (hc : FileVault.encrypt_file rand p1 m = Except.ok c)
    (hk : derive_key p2 (c.take SALT_SIZE) ITERATIONS ≠
      derive_key p1 (c.take SALT_SIZE) ITERATIONS) :
    FileVault.decrypt_file p2 c = Except.error VaultError.decryptionFailed := by
  obtain ⟨hv, hcc⟩ := encrypt_file_ok_inv rand p1 m c hc
  subst hcc
  rw [containerOf_take_salt] at hk
  unfold FileVault.decrypt_file
  rw [deserialize_container]
  show CipherEngine.decrypt (derive_key p2 (saltOf rand) ITERATIONS) (ivOf rand)
      (encOf rand p1 m ++ tagOf rand p1 m) = Except.error VaultError.decryptionFailed
  rw [cipher_decrypt_split _ _ _ _ (tagOf_length rand p1 m)]
  have hne : ¬ (tagOf rand p1 m = natToBytes TAG_SIZE
      (mac (derive_key p2 (saltOf rand) ITERATIONS) (ivOf rand)
        (encOf rand p1 m))) :=
    tag_ne_of_mac_ne _ _ (mac_lt _ _ _) (mac_lt _ _ _)
      (mac_key_ne (keyOf rand p1) (derive_key p2 (saltOf rand) ITERATIONS)
        (ivOf rand) (encOf rand p1 m) (derive_key_lt _ _ _) (derive_key_lt _ _ _)
        (keyOf_length rand p1) (derive_key_length _ _ _)
        (fun he => hk he.symm))
  rw [if_neg hne]

/-- The container decrypted with the wrong password in the C2 witness. -/
def wC2c : Bytes := (FileVault.encrypt_file wRand wPass wMsg).toOption.getD []

theorem claim_c2_witness :
    FileVault.decrypt_file wPass2 wC2c = Except.error VaultError.decryptionFailed :=
  claim_c2_wrong_password wRand wPass wPass2 wMsg wC2c (by decide) (by decide)

/-- First password of the C2 counterexample pair: the two passwords are
distinct, meet the policy, and collide under the modelled key derivation. -/
def cexP1 : Bytes := 1 :: 0 :: List.replicate 6 97

/-- Second password of the C2 counterexample pair. -/
def cexP2 : Bytes := 0 :: 31 :: List.replicate 6 97

/-- C2 counterexample: two distinct passwords whose derived keys collide,
so decrypting with the second password succeeds and returns the plaintext
instead of failing with DecryptionFailed.  A fixed-size derived key forces
such collisions to exist for any derivation function. -/
theorem claim_c2_counterexample :
    cexP1 ≠ cexP2 ∧
    FileVault.decrypt_file cexP2
        ((FileVault.encrypt_file wRand cexP1 [104, 105]).toOption.getD []) =
      Except.ok [104, 105] := by decide

/-- C7: encryption is non-deterministic by design: with the random source
as an explicit input, two runs whose byte draws differ in the salt region
and differ in the IV region produce containers whose salt fields differ and
whose IV fields differ. -/
theorem claim_c7_freshness (r1 r2 : Nat → Nat) (p m c1 c2 : Bytes)
    (h1 : FileVault.encrypt_file r1 p m = Except.ok c1)
    (h2 : FileVault.encrypt_file r2 p m = Except.ok c2)
    (hs : ∃ i, i < SALT_SIZE ∧ r1 i % 256 ≠ r2 i % 256)
    (hiv : ∃ j, j < IV_SIZE ∧ r1 (SALT_SIZE + j) % 256 ≠ r2 (SALT_SIZE + j) % 256) :
    c1.take SALT_SIZE ≠ c2.take SALT_SIZE ∧
    (c1.drop SALT_SIZE).take IV_SIZE ≠ (c2.drop SALT_SIZE).take IV_SIZE := by
  obtain ⟨hv1, hc1⟩ := encrypt_file_ok_inv r1 p m c1 h1
  obtain ⟨hv2, hc2⟩ := encrypt_file_ok_inv r2 p m c2 h2
  subst hc1
  subst hc2
  rw [containerOf_take_salt, containerOf_take_salt, containerOf_iv, containerOf_iv]
  constructor
  · obtain ⟨i, hi, hne⟩ := hs
    exact map_range_ne SALT_SIZE i (fun t => r1 t % 256) (fun t => r2 t % 256) hi hne
  · obtain ⟨j, hj, hne⟩ := hiv
    exact map_range_ne IV_SIZE j (fun t => r1 (SALT_SIZE + t) % 256)
      (fun t => r2 (SALT_SIZE + t) % 256) hj hne

/-- First container of the C7 witness. -/
def wC7a : Bytes := (FileVault.encrypt_file wRand0 wPass wMsg).toOption.getD []

/-- Second container of the C7 witness. -/
def wC7b : Bytes := (FileVault.encrypt_file wRand1 wPass wMsg).toOption.getD []

theorem claim_c7_witness :
    wC7a.take SALT_SIZE ≠ wC7b.take SALT_SIZE ∧
    (wC7a.drop SALT_SIZE).take IV_SIZE ≠ (wC7b.drop SALT_SIZE).take IV_SIZE :=
  claim_c7_freshness wRand0 wRand1 wPass wMsg wC7a wC7b (by decide) (by decide)
    ⟨0, by decide, by decide⟩ ⟨0, by decide, by decide⟩

end AESVault
